import Mathlib

/-!
Verification of the prioritized experience replay buffer in `src/utils.py`
(`class PrioritizedReplayBuffer`, lines 172-228).

Embedding conventions:
- Transitions are opaque 5-tuples; `state`/`next_state` and `action` are
  type parameters, `reward` is a rational (the Python code treats it as a
  number only through `r + gamma * reward`), `done` is a boolean.
- `self.buffer` is a Python list that grows up to `capacity` by appending
  `None` placeholders which are immediately overwritten; we model it as a
  `List (Option (Transition S A))`.
- `self.priorities` is a numpy array of length `capacity`, modelled as a
  `List ℚ` of that length.  Numpy indexing semantics (silent writes for
  indices in `[-len, len)`, `IndexError` otherwise) is captured by `npSet`.
- `self.n_step_buffer = deque(maxlen=3)` is modelled by `dequeAppend 3`.
- Randomness in `sample` (`np.random.choice`) is externalized: the drawn
  index list is a parameter.  `np.random.choice` with probability vector
  `p` only ever returns indices `i < len(buffer)` with `p i > 0`; theorems
  about `sample` place those facts as hypotheses.  The state mutation of
  `sample` (the beta annealing, which does not depend on the draw) is
  `sampleStep`; the returned triple is `sampleResult`.
- Real-valued computations (`probs`, importance weights, which use float
  powers) are modelled over `ℝ` with `Real.rpow`.
- `self.pos = (self.pos + 1) % self.capacity` assumes `capacity > 0`
  (Python raises `ZeroDivisionError` at capacity 0); reachable stores are
  constructed with a positive capacity.
-/

namespace Replay

/-- One observed environment step `(state, action, reward, next_state, done)`. -/
structure Transition (S A : Type) where
  state : S
  action : A
  reward : ℚ
  next_state : S
  done : Bool
  deriving DecidableEq, Repr

/-- `collections.deque(maxlen=m).append`: append on the right, dropping
from the left whatever exceeds `m` elements. -/
def dequeAppend (maxlen : ℕ) (w : List α) (t : α) : List α :=
  let w' := w ++ [t]
  w'.drop (w'.length - maxlen)

/-- State of `PrioritizedReplayBuffer` (src/utils.py:174-183). -/
structure Store (S A : Type) where
  capacity : ℕ
  alpha : ℚ
  beta : ℚ
  beta_increment : ℚ
  buffer : List (Option (Transition S A))
  priorities : List ℚ
  pos : ℕ
  max_priority : ℚ
  n_step_buffer : List (Transition S A)
  deriving DecidableEq, Repr

/-- `__init__(capacity, alpha=0.6, beta=0.4, beta_increment=0.001)`. -/
def Store.init (S A : Type) (capacity : ℕ) (alpha beta beta_increment : ℚ) :
    Store S A :=
  { capacity := capacity
    alpha := alpha
    beta := beta
    beta_increment := beta_increment
    buffer := []
    priorities := List.replicate capacity 0
    pos := 0
    max_priority := 1
    n_step_buffer := [] }

/-- `len(self.buffer)`: the number of occupied slots. -/
def Store.size (s : Store S A) : ℕ := s.buffer.length

/-- Reward of window entry `i`, `self.n_step_buffer[i][2]`. -/
def rewardAt (w : List (Transition S A)) (i : ℕ) : ℚ :=
  ((w.get? i).map Transition.reward).getD 0

/-- The n-step reward fold of `add`:
`for i in range(1, n_step-1): reward = r_i + gamma * reward`,
seeded with the newest window entry's reward. -/
def nStepReward (w : List (Transition S A)) (gamma : ℚ) (n_step : ℕ)
    (seed : ℚ) : ℚ :=
  (List.range' 1 (n_step - 2)).foldl (fun acc i => rewardAt w i + gamma * acc) seed

/-- `add(experience, n_step=3, gamma=0.99)` (src/utils.py:185-203). -/
def Store.add (s : Store S A) (e : Transition S A) (n_step : ℕ) (gamma : ℚ) :
    Store S A :=
  let w := dequeAppend 3 s.n_step_buffer e
  if w.length = n_step then
    let first := w.headD e
    let last := w.getLastD e
    let reward := nStepReward w gamma n_step last.reward
    let tr : Transition S A :=
      ⟨first.state, first.action, reward, last.next_state, last.done⟩
    let buf := if s.buffer.length < s.capacity then s.buffer ++ [none] else s.buffer
    { s with
      n_step_buffer := w
      buffer := buf.set s.pos (some tr)
      priorities := s.priorities.set s.pos s.max_priority
      pos := (s.pos + 1) % s.capacity }
  else
    { s with n_step_buffer := w }

/-- Numpy-style element assignment `a[idx] = v` on a 1-d array:
indices in `[0, len)` write directly, indices in `[-len, 0)` wrap,
anything else raises `IndexError` (`none`). -/
def npSet (l : List ℚ) (idx : ℤ) (v : ℚ) : Option (List ℚ) :=
  if 0 ≤ idx ∧ idx < (l.length : ℤ) then some (l.set idx.toNat v)
  else if -(l.length : ℤ) ≤ idx ∧ idx < 0 then
    some (l.set (idx + (l.length : ℤ)).toNat v)
  else none

/-- The loop body of `update_priorities`: apply `(index, priority)` pairs
in order; on the first out-of-bounds index stop with the partially
mutated state and the raised flag set (Python raises `IndexError` before
the `max_priority` update of that pair). -/
def updLoop : Store S A → List (ℤ × ℚ) → Store S A × Bool
  | s, [] => (s, false)
  | s, (i, p) :: rest =>
    match npSet s.priorities i p with
    | some pr =>
        updLoop { s with priorities := pr, max_priority := max s.max_priority p } rest
    | none => (s, true)

/-- `update_priorities(indices, priorities)` (src/utils.py:222-225).
Returns the resulting state and whether an `IndexError` was raised. -/
def Store.update_priorities (s : Store S A) (indices : List ℤ) (prs : List ℚ) :
    Store S A × Bool :=
  updLoop s (indices.zip prs)

/-- The state mutation of `sample` (src/utils.py:205-218): on an empty
store it returns before mutating anything; otherwise it anneals
`self.beta = min(1.0, self.beta + self.beta_increment)`. -/
def Store.sampleStep (s : Store S A) : Store S A :=
  if s.buffer.length = 0 then s
  else { s with beta := min 1 (s.beta + s.beta_increment) }

/-- Sampling probability of slot `i`:
`probs = priorities[:len(buffer)] ** alpha; probs /= probs.sum()`. -/
noncomputable def Store.prob (s : Store S A) (i : ℕ) : ℝ :=
  let pri := s.priorities.take s.buffer.length
  ((pri.getD i 0 : ℚ) : ℝ) ^ ((s.alpha : ℚ) : ℝ) /
    (pri.map (fun p => ((p : ℚ) : ℝ) ^ ((s.alpha : ℚ) : ℝ))).sum

/-- Unnormalized importance weight of a drawn slot:
`(len(self.buffer) * probs[i]) ** (-self.beta)`. -/
noncomputable def Store.rawWeight (s : Store S A) (i : ℕ) : ℝ :=
  ((s.size : ℝ) * s.prob i) ^ (-((s.beta : ℚ) : ℝ))

/-- `weights.max()` of a numpy array: the maximum of a nonempty list. -/
def npMax (l : List ℝ) : ℝ := l.foldl max (l.headD 0)

/-- The normalized weight vector returned by `sample` for a draw:
`weights /= weights.max()`. -/
noncomputable def Store.sampleWeights (s : Store S A) (draw : List ℕ) : List ℝ :=
  let ws := draw.map s.rawWeight
  ws.map (· / npMax ws)

/-- The triple `(samples, indices, weights)` returned by `sample`
(src/utils.py:205-220) for a given random draw. -/
noncomputable def Store.sampleResult (s : Store S A) (draw : List ℕ) :
    List (Option (Transition S A)) × List ℕ × List ℝ :=
  if s.buffer.length = 0 then ([], [], [])
  else (draw.map (fun i => s.buffer.getD i none), draw, s.sampleWeights draw)

/-- One buffer operation, for stating invariants over operation
sequences.  The `sample` constructor records the drawn indices. -/
inductive Op (S A : Type) where
  | add (e : Transition S A) (n_step : ℕ) (gamma : ℚ)
  | sample (batch : ℕ) (draw : List ℕ)
  | update (indices : List ℤ) (prs : List ℚ)

/-- Effect of one operation on the store state. -/
def Store.step (s : Store S A) : Op S A → Store S A
  | .add e n γ => s.add e n γ
  | .sample _ _ => s.sampleStep
  | .update idx prs => (s.update_priorities idx prs).1

/-- Effect of a sequence of operations. -/
def Store.steps (s : Store S A) (ops : List (Op S A)) : Store S A :=
  ops.foldl Store.step s

/-- Structural well-formedness of a store: positive capacity, priority
array of length `capacity`, at most `capacity` occupied slots, cursor at
the append position while warming and always inside the ring. -/
def WF (s : Store S A) : Prop :=
  0 < s.capacity ∧ s.priorities.length = s.capacity ∧
  s.buffer.length ≤ s.capacity ∧
  (s.buffer.length < s.capacity → s.pos = s.buffer.length) ∧
  s.pos < s.capacity

instance (s : Store S A) : Decidable (WF s) := by
  unfold WF; infer_instance

/-- A fixed store used to instantiate theorems on concrete inputs:
`PrioritizedReplayBuffer(4)` with the default hyperparameters. -/
def egStore : Store ℕ ℕ := Store.init ℕ ℕ 4 (3/5) (2/5) (1/1000)

/-- Concrete transitions, numbered by `k` with reward `r`. -/
def egTr (k : ℕ) (r : ℚ) : Transition ℕ ℕ := ⟨k, k, r, 100 + k, false⟩

/-- Store reached after two `add` calls: window `[egTr 1 1, egTr 2 2]`,
nothing committed yet. -/
def w1Store : Store ℕ ℕ :=
  { egStore with n_step_buffer := [egTr 1 1, egTr 2 2] }

/-- Store reached after three `add` calls: full window, one commit made,
cursor at slot 1. -/
def w2Store : Store ℕ ℕ :=
  { egStore with
    buffer := [some (egTr 1 1)]
    priorities := [1, 0, 0, 0]
    pos := 1
    n_step_buffer := [egTr 1 1, egTr 2 2, egTr 3 3] }

/-- The C3 scenario: `PrioritizedReplayBuffer(4)`, then the first `n`
of five transitions with rewards `1..5` added one per call with
`n_step = 2`, `gamma = 1/2`. -/
def c3Run (n : ℕ) : Store ℕ ℕ :=
  (([egTr 1 1, egTr 2 2, egTr 3 3, egTr 4 4, egTr 5 5].take n).foldl
    (fun st e => st.add e 2 (1/2)) egStore)

/-- Record update applied by one successful `update_priorities` pair. -/
def updWrite (s : Store S A) (pr : List ℚ) (p : ℚ) : Store S A :=
  { s with priorities := pr, max_priority := max s.max_priority p }

/-- An operation whose priority arguments are all strictly positive (the
learner's contract: priorities are |TD-error|-derived and positive). -/
def PosOk : Op S A → Prop
  | .update _ prs => ∀ p ∈ prs, 0 < p
  | _ => True

instance : (op : Op S A) → Decidable (PosOk op)
  | .add _ _ _ => isTrue trivial
  | .sample _ _ => isTrue trivial
  | .update _ prs => inferInstanceAs (Decidable (∀ p ∈ prs, 0 < p))

/-- Reachable-state invariant: well-formed store, positive running
maximum, and strictly positive priority on every occupied slot. -/
def Inv (s : Store S A) : Prop :=
  WF s ∧ 0 < s.max_priority ∧
  ∀ i < s.buffer.length, 0 < s.priorities.getD i 0

instance (s : Store S A) : Decidable (Inv s) := by
  unfold Inv; infer_instance

/-- The C8 counterexample run: a freshly constructed store, three `add`
calls (one commit, priority seeded 1), then `update_priorities([0], [0])`. -/
def c8Mid : Store ℕ ℕ :=
  egStore.steps [.add (egTr 1 1) 3 1, .add (egTr 2 2) 3 1, .add (egTr 3 3) 3 1]

def c8Run : Store ℕ ℕ := c8Mid.step (.update [0] [0])

/-- A one-slot store with integer hyperparameters, for evaluating the
sampling-weight theorem at a concrete input. -/
def w4Store : Store ℕ ℕ :=
  { capacity := 1, alpha := 1, beta := 1, beta_increment := 0,
    buffer := [some (egTr 1 1)], priorities := [1], pos := 0,
    max_priority := 1, n_step_buffer := [] }

theorem dequeAppend_of_lt (w : List α) (t : α) (h : w.length < 3) :
    dequeAppend 3 w t = w ++ [t] := by
  have h0 : w.length - 2 = 0 := by omega
  simp [dequeAppend, h0]

theorem dequeAppend_length_le (w : List α) (t : α) :
    (dequeAppend 3 w t).length ≤ 3 := by
  simp [dequeAppend]
  omega

theorem add_of_commit (s : Store S A) (e : Transition S A) (n_step : ℕ) (gamma : ℚ)
    (h : (dequeAppend 3 s.n_step_buffer e).length = n_step) :
    s.add e n_step gamma =
      { s with
        n_step_buffer := dequeAppend 3 s.n_step_buffer e
        buffer :=
          (if s.buffer.length < s.capacity then s.buffer ++ [none] else s.buffer).set
            s.pos (some
              ⟨((dequeAppend 3 s.n_step_buffer e).headD e).state,
               ((dequeAppend 3 s.n_step_buffer e).headD e).action,
               nStepReward (dequeAppend 3 s.n_step_buffer e) gamma n_step
                 ((dequeAppend 3 s.n_step_buffer e).getLastD e).reward,
               ((dequeAppend 3 s.n_step_buffer e).getLastD e).next_state,
               ((dequeAppend 3 s.n_step_buffer e).getLastD e).done⟩)
        priorities := s.priorities.set s.pos s.max_priority
        pos := (s.pos + 1) % s.capacity } := by
  simp [Store.add, h]

theorem getD_set_self' (l : List α) (i : ℕ) (v d : α) (h : i < l.length) :
    (l.set i v).getD i d = v := by
  rw [List.getD_eq_getElem?_getD, List.getElem?_set_self h]; rfl

theorem getD_set_some (l : List (Option β)) (i : ℕ) (b : β) (h : i < l.length) :
    (l.set i (some b)).getD i none = some b :=
  getD_set_self' l i (some b) none h

theorem add_of_no_commit (s : Store S A) (e : Transition S A) (n_step : ℕ) (gamma : ℚ)
    (h : (dequeAppend 3 s.n_step_buffer e).length ≠ n_step) :
    s.add e n_step gamma = { s with n_step_buffer := dequeAppend 3 s.n_step_buffer e } := by
  simp [Store.add, h]

/-- Claim C1: with the default `n_step = 3`, `add` commits nothing while
the pending window holds fewer than 3 raw transitions; on the `add` that
brings the window to exactly 3 entries it commits one transition whose
`state`/`action` come from the oldest window entry, whose
`next_state`/`done` come from the newest entry, and whose reward equals
`r_mid + gamma * r_newest` (the oldest entry's reward excluded). -/
theorem add_nstep3_first_commit (s : Store S A) (e : Transition S A) (gamma : ℚ)
    (hwarm : s.pos = s.buffer.length) (hcap : s.buffer.length < s.capacity) :
    (s.n_step_buffer.length < 2 →
      (s.add e 3 gamma).buffer = s.buffer ∧
      (s.add e 3 gamma).priorities = s.priorities ∧
      (s.add e 3 gamma).pos = s.pos ∧
      (s.add e 3 gamma).size = s.size ∧
      (s.add e 3 gamma).n_step_buffer = s.n_step_buffer ++ [e]) ∧
    (s.n_step_buffer.length = 2 →
      (s.add e 3 gamma).size = s.size + 1 ∧
      (s.add e 3 gamma).buffer.getD s.pos none =
        some ⟨(s.n_step_buffer.headD e).state, (s.n_step_buffer.headD e).action,
          rewardAt s.n_step_buffer 1 + gamma * e.reward,
          e.next_state, e.done⟩) := by
  constructor
  · intro hlt
    have hw := dequeAppend_of_lt s.n_step_buffer e (by omega)
    have hne : (dequeAppend 3 s.n_step_buffer e).length ≠ 3 := by
      rw [hw]; simp; omega
    rw [add_of_no_commit s e 3 gamma hne]
    simp [Store.size, hw]
  · intro h2
    obtain ⟨t0, t1, hnb⟩ := List.length_eq_two.mp h2
    have hw : dequeAppend 3 s.n_step_buffer e = [t0, t1, e] := by
      simp only [hnb]; rfl
    rw [add_of_commit s e 3 gamma (by rw [hw]; rfl)]
    refine ⟨by simp [Store.size, hcap], ?_⟩
    rw [hw, hwarm, if_pos hcap, List.getD_eq_getElem?_getD,
      List.getElem?_set_self (by simp)]
    simp only [hnb, Option.getD_some]
    show some (Transition.mk t0.state t0.action (t1.reward + gamma * e.reward)
      e.next_state e.done) = _
    simp [rewardAt]

theorem add_nstep3_first_commit_witness :
    ((w1Store.add (egTr 3 3) 3 (99/100)).size = w1Store.size + 1 ∧
      (w1Store.add (egTr 3 3) 3 (99/100)).buffer.getD w1Store.pos none =
        some ⟨(w1Store.n_step_buffer.headD (egTr 3 3)).state,
          (w1Store.n_step_buffer.headD (egTr 3 3)).action,
          rewardAt w1Store.n_step_buffer 1 + (99/100) * (egTr 3 3).reward,
          (egTr 3 3).next_state, (egTr 3 3).done⟩) ∧
    (w1Store.add (egTr 3 3) 3 (99/100)).buffer.getD 0 none =
      some ⟨1, 1, 497/100, 103, false⟩ :=
  ⟨(add_nstep3_first_commit w1Store (egTr 3 3) (99/100) (by decide) (by decide)).2
      (by decide),
    by norm_num [w1Store, egStore, egTr, Store.init, Store.add, dequeAppend,
      nStepReward, rewardAt]⟩

/-- Claim C2: for `n_step = 3` the pending window is not cleared after a
commit: once the window has reached length 3, every subsequent `add`
commits exactly one aggregated transition into the ring buffer (a
sliding window, not one commit per `n_step` raw additions). -/
theorem add_sliding_window_commit (s : Store S A) (e : Transition S A) (gamma : ℚ)
    (hfull : s.n_step_buffer.length = 3) (hwf : WF s) :
    (s.add e 3 gamma).n_step_buffer = s.n_step_buffer.tail ++ [e] ∧
    (s.add e 3 gamma).n_step_buffer.length = 3 ∧
    (s.add e 3 gamma).size =
      (if s.size < s.capacity then s.size + 1 else s.size) ∧
    (s.add e 3 gamma).pos = (s.pos + 1) % s.capacity ∧
    ∃ tr, (s.add e 3 gamma).buffer.getD s.pos none = some tr := by
  obtain ⟨hc0, hplen, hble, hpw, hpc⟩ := hwf
  obtain ⟨t0, t1, t2, hnb⟩ := List.length_eq_three.mp hfull
  have hw : dequeAppend 3 s.n_step_buffer e = [t1, t2, e] := by
    simp only [hnb]; rfl
  rw [add_of_commit s e 3 gamma (by rw [hw]; rfl)]
  refine ⟨by rw [hw, hnb]; rfl, by rw [hw]; rfl, ?_, rfl, ?_⟩
  · by_cases hlt : s.buffer.length < s.capacity <;> simp [Store.size, hlt]
  · exact ⟨_, getD_set_some _ _ _ (by
      by_cases hlt : s.buffer.length < s.capacity <;> simp [hlt] <;> omega)⟩

theorem add_sliding_window_commit_witness :
    ((w2Store.add (egTr 4 4) 3 (99/100)).n_step_buffer =
        w2Store.n_step_buffer.tail ++ [egTr 4 4] ∧
      (w2Store.add (egTr 4 4) 3 (99/100)).n_step_buffer.length = 3 ∧
      (w2Store.add (egTr 4 4) 3 (99/100)).size =
        (if w2Store.size < w2Store.capacity then w2Store.size + 1 else w2Store.size) ∧
      (w2Store.add (egTr 4 4) 3 (99/100)).pos = (w2Store.pos + 1) % w2Store.capacity ∧
      ∃ tr, (w2Store.add (egTr 4 4) 3 (99/100)).buffer.getD w2Store.pos none = some tr) ∧
    (w2Store.add (egTr 4 4) 3 (99/100)).size = 2 :=
  ⟨add_sliding_window_commit w2Store (egTr 4 4) (99/100) (by decide) (by decide),
    by decide⟩

/-- Claim C10: for every `n_step ≥ 4`, `add` never commits, no matter how
many transitions are added: the pending window is a deque with hard-coded
maximum length 3, so its length never equals `n_step`, and the ring
buffer, priority array, cursor and size are unchanged by every such call. -/
theorem add_large_nstep_never_commits (s : Store S A) (e : Transition S A)
    (es : List (Transition S A)) (n_step : ℕ) (gamma : ℚ) (h4 : 4 ≤ n_step) :
    ((s.add e n_step gamma).buffer = s.buffer ∧
      (s.add e n_step gamma).priorities = s.priorities ∧
      (s.add e n_step gamma).pos = s.pos ∧
      (s.add e n_step gamma).max_priority = s.max_priority ∧
      (s.add e n_step gamma).size = s.size) ∧
    ((es.foldl (fun st x => st.add x n_step gamma) s).buffer = s.buffer ∧
      (es.foldl (fun st x => st.add x n_step gamma) s).priorities = s.priorities ∧
      (es.foldl (fun st x => st.add x n_step gamma) s).pos = s.pos ∧
      (es.foldl (fun st x => st.add x n_step gamma) s).size = s.size) := by
  have hstep : ∀ (t : Store S A) (x : Transition S A),
      t.add x n_step gamma = { t with n_step_buffer := dequeAppend 3 t.n_step_buffer x } := by
    intro t x
    refine add_of_no_commit t x n_step gamma ?_
    have := dequeAppend_length_le t.n_step_buffer x
    omega
  constructor
  · rw [hstep]; exact ⟨rfl, rfl, rfl, rfl, rfl⟩
  · induction es generalizing s with
    | nil => exact ⟨rfl, rfl, rfl, rfl⟩
    | cons x xs ih =>
      simp only [List.foldl_cons, hstep s x]
      exact ih _

theorem add_large_nstep_never_commits_witness :
    (((egStore.add (egTr 1 1) 4 (99/100)).buffer = egStore.buffer ∧
      (egStore.add (egTr 1 1) 4 (99/100)).priorities = egStore.priorities ∧
      (egStore.add (egTr 1 1) 4 (99/100)).pos = egStore.pos ∧
      (egStore.add (egTr 1 1) 4 (99/100)).max_priority = egStore.max_priority ∧
      (egStore.add (egTr 1 1) 4 (99/100)).size = egStore.size) ∧
     (([egTr 2 2, egTr 3 3, egTr 4 4, egTr 5 5, egTr 6 6].foldl
        (fun st x => st.add x 4 (99/100)) egStore).buffer = egStore.buffer ∧
      ([egTr 2 2, egTr 3 3, egTr 4 4, egTr 5 5, egTr 6 6].foldl
        (fun st x => st.add x 4 (99/100)) egStore).priorities = egStore.priorities ∧
      ([egTr 2 2, egTr 3 3, egTr 4 4, egTr 5 5, egTr 6 6].foldl
        (fun st x => st.add x 4 (99/100)) egStore).pos = egStore.pos ∧
      ([egTr 2 2, egTr 3 3, egTr 4 4, egTr 5 5, egTr 6 6].foldl
        (fun st x => st.add x 4 (99/100)) egStore).size = egStore.size)) ∧
    ([egTr 2 2, egTr 3 3, egTr 4 4, egTr 5 5, egTr 6 6].foldl
      (fun st x => st.add x 4 (99/100)) egStore).size = 0 :=
  ⟨add_large_nstep_never_commits egStore (egTr 1 1)
      [egTr 2 2, egTr 3 3, egTr 4 4, egTr 5 5, egTr 6 6] 4 (99/100) (by decide),
    by decide⟩

/-- Claim C7: calling `sample` on an empty store (`size == 0`), for any
batch size including 5, returns an empty batch, empty indices and empty
weights, raises no error, and leaves all store state (including `beta`)
unchanged. -/
theorem sample_empty_store (s : Store S A) (draw : List ℕ) (h : s.size = 0) :
    s.sampleResult draw = ([], [], []) ∧ s.sampleStep = s := by
  have hlen : s.buffer.length = 0 := h
  exact ⟨by simp [Store.sampleResult, hlen], by simp [Store.sampleStep, hlen]⟩

theorem sample_empty_store_witness :
    (egStore.sampleResult [0, 1, 2, 3, 4] = ([], [], []) ∧
      egStore.sampleStep = egStore) ∧
    egStore.size = 0 :=
  ⟨sample_empty_store egStore [0, 1, 2, 3, 4] (by decide), by decide⟩

/-- Claim C3 is false on the code: with `n_step = 2` the deque (hard-coded
`maxlen=3`) reaches length 3 on the 3rd `add` and never has length 2
again, so the 3rd add commits nothing, and after five adds the store
holds one transition with the cursor at slot 1 — not four transitions
with the cursor wrapped to slot 0. -/
theorem c3_counterexample :
    (c3Run 5).size ≠ 4 ∧ (c3Run 5).pos ≠ 0 ∧
    (c3Run 3).buffer = (c3Run 2).buffer := by
  refine ⟨by decide, by decide, ?_⟩
  rfl

/-- Claim C3 amended: the 2nd `add` commits one transition with
`state`/`action` from transition 1 and reward 2 (the fold range is empty
for `n_step = 2`); because the pending window is a deque hard-coded to
`maxlen = 3`, the window has length 3 from the 3rd `add` on and never
equals `n_step = 2` again, so no later `add` commits: after all five
adds, `size = 1`, slot 0 holds the single commit from add 2, and the
cursor is at slot 1, never having wrapped. -/
theorem c3_amended :
    (c3Run 1).size = 0 ∧
    (c3Run 2).size = 1 ∧ (c3Run 2).pos = 1 ∧
    (c3Run 2).buffer.getD 0 none = some ⟨1, 1, 2, 102, false⟩ ∧
    (c3Run 3).buffer = (c3Run 2).buffer ∧
    (c3Run 4).buffer = (c3Run 2).buffer ∧
    (c3Run 5).buffer = (c3Run 2).buffer ∧
    (c3Run 5).size = 1 ∧ (c3Run 5).pos = 1 := by
  exact ⟨by decide, by decide, by decide, rfl, rfl, rfl, rfl, by decide, by decide⟩

theorem updLoop_cons_some (s : Store S A) (i : ℤ) (p : ℚ) (rest : List (ℤ × ℚ))
    (pr : List ℚ) (h : npSet s.priorities i p = some pr) :
    updLoop s ((i, p) :: rest) = updLoop (updWrite s pr p) rest := by
  simp only [updLoop, h, updWrite]

theorem updLoop_cons_none (s : Store S A) (i : ℤ) (p : ℚ) (rest : List (ℤ × ℚ))
    (h : npSet s.priorities i p = none) :
    updLoop s ((i, p) :: rest) = (s, true) := by
  simp only [updLoop, h]

theorem updLoop_inbounds (pairs : List (ℤ × ℚ)) : ∀ (s : Store S A),
    (∀ q ∈ pairs, 0 ≤ q.1 ∧ q.1 < (s.priorities.length : ℤ)) →
    (updLoop s pairs).2 = false ∧
    (updLoop s pairs).1.priorities =
      pairs.foldl (fun l q => l.set q.1.toNat q.2) s.priorities ∧
    (updLoop s pairs).1.max_priority =
      pairs.foldl (fun m q => max m q.2) s.max_priority ∧
    (updLoop s pairs).1.buffer = s.buffer ∧
    (updLoop s pairs).1.pos = s.pos ∧
    (updLoop s pairs).1.beta = s.beta ∧
    (updLoop s pairs).1.capacity = s.capacity ∧
    (updLoop s pairs).1.priorities.length = s.priorities.length := by
  induction pairs with
  | nil =>
    intro s _
    exact ⟨rfl, rfl, rfl, rfl, rfl, rfl, rfl, rfl⟩
  | cons q rest ih =>
    intro s h
    obtain ⟨i, p⟩ := q
    obtain ⟨h0, hlt⟩ := h (i, p) (List.mem_cons_self _ _)
    have hset : npSet s.priorities i p = some (s.priorities.set i.toNat p) := by
      rw [npSet, if_pos ⟨h0, hlt⟩]
    rw [updLoop_cons_some s i p rest _ hset]
    have hrest := ih (updWrite s (s.priorities.set i.toNat p) p)
      (by intro r hr
          have := h r (List.mem_cons_of_mem _ hr)
          simpa [updWrite] using this)
    simp only [List.foldl_cons]
    refine ⟨hrest.1, hrest.2.1, hrest.2.2.1, hrest.2.2.2.1, hrest.2.2.2.2.1,
      hrest.2.2.2.2.2.1, hrest.2.2.2.2.2.2.1, ?_⟩
    rw [hrest.2.2.2.2.2.2.2]
    simp [updWrite]

/-- Claim C5: `update_priorities(indices, priorities)` overwrites, for
each `(index, priority)` pair in order, `priority[index]` with the new
value and sets `max_priority` to `max(max_priority, priority)`; after an
update `[i] [p]` with `p` above the current `max_priority`, the next
commit performed by `add` seeds its slot's priority with exactly `p`. -/
theorem update_priorities_spec (s : Store S A) (indices : List ℤ) (prs : List ℚ)
    (i : ℤ) (p : ℚ) (e : Transition S A) (gamma : ℚ)
    (hin : ∀ q ∈ indices.zip prs, 0 ≤ q.1 ∧ q.1 < (s.priorities.length : ℤ))
    (hi0 : 0 ≤ i) (hilt : i < (s.priorities.length : ℤ))
    (hp : s.max_priority < p)
    (hpos : s.pos < s.priorities.length)
    (hcommit : (dequeAppend 3 s.n_step_buffer e).length = 3) :
    ((s.update_priorities indices prs).2 = false ∧
      (s.update_priorities indices prs).1.priorities =
        (indices.zip prs).foldl (fun l q => l.set q.1.toNat q.2) s.priorities ∧
      (s.update_priorities indices prs).1.max_priority =
        (indices.zip prs).foldl (fun m q => max m q.2) s.max_priority) ∧
    ((s.update_priorities [i] [p]).1.max_priority = p ∧
      ((s.update_priorities [i] [p]).1.add e 3 gamma).priorities.getD s.pos 0 = p) := by
  have hgen := updLoop_inbounds (S := S) (A := A) (indices.zip prs) s hin
  have hset : npSet s.priorities i p = some (s.priorities.set i.toNat p) := by
    rw [npSet, if_pos ⟨hi0, hilt⟩]
  have hupd : s.update_priorities [i] [p] =
      (updWrite s (s.priorities.set i.toNat p) p, false) := by
    show updLoop s [(i, p)] = _
    rw [updLoop_cons_some s i p [] _ hset]
    rfl
  refine ⟨⟨hgen.1, hgen.2.1, hgen.2.2.1⟩, ?_, ?_⟩
  · rw [hupd]
    show max s.max_priority p = p
    exact max_eq_right (le_of_lt hp)
  · rw [hupd]
    set s1 := updWrite s (s.priorities.set i.toNat p) p with hs1
    have hcommit1 : (dequeAppend 3 s1.n_step_buffer e).length = 3 := hcommit
    rw [add_of_commit s1 e 3 gamma hcommit1]
    show (s1.priorities.set s1.pos s1.max_priority).getD s.pos 0 = p
    have hmax : s1.max_priority = p := max_eq_right (le_of_lt hp)
    have hpos1 : s1.pos = s.pos := rfl
    rw [hmax, hpos1]
    exact getD_set_self' _ _ _ _ (by simp [hs1, updWrite]; exact hpos)

/-- Claim C5 instantiated: `w2Store` (one occupied slot, cursor 1, full
window) after `update_priorities([0], [2])` and one more `add`. -/
theorem update_priorities_spec_witness :
    (((w2Store.update_priorities [0] [2]).2 = false ∧
      (w2Store.update_priorities [0] [2]).1.priorities =
        ([(0, 2)] : List (ℤ × ℚ)).foldl (fun l q => l.set q.1.toNat q.2) w2Store.priorities ∧
      (w2Store.update_priorities [0] [2]).1.max_priority =
        ([(0, 2)] : List (ℤ × ℚ)).foldl (fun m q => max m q.2) w2Store.max_priority) ∧
     ((w2Store.update_priorities [0] [2]).1.max_priority = 2 ∧
      ((w2Store.update_priorities [0] [2]).1.add (egTr 4 4) 3 (99/100)).priorities.getD
        w2Store.pos 0 = 2)) ∧
    (w2Store.update_priorities [0] [2]).1.priorities = [2, 0, 0, 0] :=
  ⟨update_priorities_spec w2Store [0] [2] 0 2 (egTr 4 4) (99/100)
      (by decide) (by decide) (by decide) (by decide) (by decide) (by decide),
    by decide⟩

theorem add_beta (s : Store S A) (e : Transition S A) (n_step : ℕ) (gamma : ℚ) :
    (s.add e n_step gamma).beta = s.beta ∧
    (s.add e n_step gamma).beta_increment = s.beta_increment := by
  by_cases h : (dequeAppend 3 s.n_step_buffer e).length = n_step
  · rw [add_of_commit s e n_step gamma h]; exact ⟨rfl, rfl⟩
  · rw [add_of_no_commit s e n_step gamma h]; exact ⟨rfl, rfl⟩

theorem updLoop_beta (pairs : List (ℤ × ℚ)) : ∀ (s : Store S A),
    (updLoop s pairs).1.beta = s.beta ∧
    (updLoop s pairs).1.beta_increment = s.beta_increment := by
  induction pairs with
  | nil => intro s; exact ⟨rfl, rfl⟩
  | cons q rest ih =>
    intro s
    obtain ⟨i, p⟩ := q
    cases h : npSet s.priorities i p with
    | some pr => rw [updLoop_cons_some s i p rest pr h]; exact ih _
    | none => rw [updLoop_cons_none s i p rest h]; exact ⟨rfl, rfl⟩

theorem step_beta (s : Store S A) (op : Op S A)
    (hinc : 0 ≤ s.beta_increment) (hb : s.beta ≤ 1) :
    s.beta ≤ (s.step op).beta ∧ (s.step op).beta ≤ 1 ∧
    (s.step op).beta_increment = s.beta_increment := by
  cases op with
  | add e n γ =>
    obtain ⟨h1, h2⟩ := add_beta s e n γ
    exact ⟨le_of_eq h1.symm, h1 ▸ hb, h2⟩
  | sample b draw =>
    show s.beta ≤ s.sampleStep.beta ∧ s.sampleStep.beta ≤ 1 ∧
      s.sampleStep.beta_increment = s.beta_increment
    rw [Store.sampleStep]
    by_cases h : s.buffer.length = 0
    · rw [if_pos h]; exact ⟨le_refl _, hb, rfl⟩
    · rw [if_neg h]
      refine ⟨?_, ?_, rfl⟩
      · exact le_min hb (le_add_of_nonneg_right hinc)
      · exact min_le_left _ _
  | update idx prs =>
    obtain ⟨h1, h2⟩ := updLoop_beta (idx.zip prs) s
    exact ⟨le_of_eq h1.symm, h1 ▸ hb, h2⟩

/-- Claim C6: assuming `beta_increment ≥ 0` (and a valid initial
`beta ≤ 1`), `beta` is monotonically non-decreasing across any sequence
of operations, never exceeds 1, and is increased by `beta_increment`
(clamped at 1) as a side effect of every `sample` call on a non-empty
store. -/
theorem beta_monotone_annealed (s : Store S A) (ops : List (Op S A))
    (hinc : 0 ≤ s.beta_increment) (hb : s.beta ≤ 1) :
    (s.beta ≤ (s.steps ops).beta ∧ (s.steps ops).beta ≤ 1) ∧
    (s.buffer.length ≠ 0 →
      s.sampleStep.beta = min 1 (s.beta + s.beta_increment)) := by
  refine ⟨?_, ?_⟩
  · induction ops generalizing s with
    | nil => exact ⟨le_refl _, hb⟩
    | cons op rest ih =>
      obtain ⟨h1, h2, h3⟩ := step_beta s op hinc hb
      obtain ⟨ih1, ih2⟩ := ih (s.step op) (h3 ▸ hinc) h2
      exact ⟨le_trans h1 ih1, ih2⟩
  · intro h
    rw [Store.sampleStep, if_neg h]

theorem beta_monotone_annealed_witness :
    ((egStore.beta ≤ (egStore.steps
        [.sample 1 [0], .add (egTr 1 1) 3 1, .update [0] [2]]).beta ∧
      (egStore.steps [.sample 1 [0], .add (egTr 1 1) 3 1, .update [0] [2]]).beta ≤ 1) ∧
     (egStore.buffer.length ≠ 0 →
       egStore.sampleStep.beta = min 1 (egStore.beta + egStore.beta_increment))) ∧
    (w2Store.sampleStep.beta = min 1 (w2Store.beta + w2Store.beta_increment)) :=
  ⟨beta_monotone_annealed egStore [.sample 1 [0], .add (egTr 1 1) 3 1, .update [0] [2]]
      (by norm_num [egStore, Store.init]) (by norm_num [egStore, Store.init]),
    (beta_monotone_annealed w2Store [] (by norm_num [w2Store, egStore, Store.init])
      (by norm_num [w2Store, egStore, Store.init])).2 (by decide)⟩

theorem getD_set_ne' (l : List α) (i j : ℕ) (v d : α) (h : i ≠ j) :
    (l.set i v).getD j d = l.getD j d := by
  rw [List.getD_eq_getElem?_getD, List.getElem?_set_ne h, ← List.getD_eq_getElem?_getD]

/-- Claim C9 is false on the code: `update_priorities` writes through a
numpy array of length `capacity`, so an index in `[size, capacity)` is
accepted and written silently rather than rejected.  On the fresh
4-capacity store (`size = 0`), index 1 is outside `[0, size)` yet no
error is raised and `priorities[1]` becomes 5. -/
theorem c9_counterexample :
    (egStore.update_priorities [1] [5]).2 = false ∧
    (egStore.update_priorities [1] [5]).1.priorities = [0, 5, 0, 0] ∧
    egStore.size = 0 := by decide

theorem updLoop_no_raise (pairs : List (ℤ × ℚ)) : ∀ (s : Store S A),
    (∀ q ∈ pairs, -(s.priorities.length : ℤ) ≤ q.1 ∧
      q.1 < (s.priorities.length : ℤ)) →
    (updLoop s pairs).2 = false := by
  induction pairs with
  | nil => intro s _; rfl
  | cons q rest ih =>
    intro s h
    obtain ⟨i, p⟩ := q
    obtain ⟨hge, hlt⟩ := h (i, p) (List.mem_cons_self _ _)
    by_cases h0 : 0 ≤ i
    · have hset : npSet s.priorities i p = some (s.priorities.set i.toNat p) := by
        rw [npSet, if_pos ⟨h0, hlt⟩]
      rw [updLoop_cons_some s i p rest _ hset]
      exact ih _ (by
        intro r hr
        have := h r (List.mem_cons_of_mem _ hr)
        simpa [updWrite] using this)
    · have hneg : i < 0 := by omega
      have hset : npSet s.priorities i p =
          some (s.priorities.set (i + (s.priorities.length : ℤ)).toNat p) := by
        rw [npSet, if_neg (by intro hc; exact h0 hc.1), if_pos ⟨hge, hneg⟩]
      rw [updLoop_cons_some s i p rest _ hset]
      exact ih _ (by
        intro r hr
        have := h r (List.mem_cons_of_mem _ hr)
        simpa [updWrite] using this)

/-- Claim C9 amended: `update_priorities` raises a bounds error only for
an index `≥ capacity` or `< -capacity` (numpy semantics, `capacity` being
the priority array's length); an index merely outside the occupied range
`[0, size)` but inside the array — including negative indices, which
wrap — is written silently.  When the first index is out of array
bounds the call raises immediately, leaving the store unchanged. -/
theorem update_priorities_numpy_bounds (s : Store S A) (i : ℤ) (p : ℚ)
    (idx : List ℤ) (prs : List ℚ) :
    ((∀ q ∈ (i :: idx).zip (p :: prs), -(s.priorities.length : ℤ) ≤ q.1 ∧
        q.1 < (s.priorities.length : ℤ)) →
      (s.update_priorities (i :: idx) (p :: prs)).2 = false) ∧
    (((s.priorities.length : ℤ) ≤ i ∨ i < -(s.priorities.length : ℤ)) →
      s.update_priorities (i :: idx) (p :: prs) = (s, true)) := by
  constructor
  · intro h
    exact updLoop_no_raise _ s h
  · intro hbad
    have hset : npSet s.priorities i p = none := by
      rw [npSet, if_neg (by intro hc; omega), if_neg (by intro hc; omega)]
    show updLoop s ((i, p) :: idx.zip prs) = (s, true)
    exact updLoop_cons_none s i p _ hset

theorem update_priorities_numpy_bounds_witness :
    (egStore.update_priorities [1, -1] [5, 7]).2 = false ∧
    egStore.update_priorities [9] [2] = (egStore, true) :=
  ⟨(update_priorities_numpy_bounds egStore 1 5 [-1] [7]).1 (by decide),
    (update_priorities_numpy_bounds egStore 9 2 [] []).2 (by decide)⟩

theorem npSet_facts (l : List ℚ) (i : ℤ) (v : ℚ) (pr : List ℚ)
    (h : npSet l i v = some pr) :
    pr.length = l.length ∧
    ∀ j (d : ℚ), pr.getD j d = l.getD j d ∨ pr.getD j d = v := by
  rw [npSet] at h
  split_ifs at h with h1 h2
  · obtain ⟨h1a, h1b⟩ := h1
    cases h
    refine ⟨by simp, ?_⟩
    intro j d
    by_cases hj : i.toNat = j
    · subst hj
      exact Or.inr (getD_set_self' _ _ _ _ (by omega))
    · exact Or.inl (getD_set_ne' _ _ _ _ _ hj)
  · obtain ⟨h2a, h2b⟩ := h2
    cases h
    refine ⟨by simp, ?_⟩
    intro j d
    by_cases hj : (i + (l.length : ℤ)).toNat = j
    · subst hj
      exact Or.inr (getD_set_self' _ _ _ _ (by omega))
    · exact Or.inl (getD_set_ne' _ _ _ _ _ hj)

theorem updLoop_Inv (pairs : List (ℤ × ℚ)) : ∀ (s : Store S A),
    Inv s → (∀ q ∈ pairs, 0 < q.2) → Inv (updLoop s pairs).1 := by
  induction pairs with
  | nil => intro s h _; exact h
  | cons q rest ih =>
    intro s h hp
    obtain ⟨i, p⟩ := q
    cases hset : npSet s.priorities i p with
    | none => rw [updLoop_cons_none s i p rest hset]; exact h
    | some pr =>
      rw [updLoop_cons_some s i p rest pr hset]
      obtain ⟨hlen, hval⟩ := npSet_facts s.priorities i p pr hset
      obtain ⟨⟨hc, hpl, hbl, hpw, hpc⟩, hmax, hocc⟩ := h
      refine ih _ ⟨⟨hc, by simp [updWrite, hlen, hpl], hbl, hpw, hpc⟩,
        lt_max_of_lt_left hmax, ?_⟩ (by
          intro r hr
          exact hp r (List.mem_cons_of_mem _ hr))
      intro j hj
      rcases hval j 0 with hsame | hnew
      · show 0 < pr.getD j 0
        rw [hsame]; exact hocc j hj
      · show 0 < pr.getD j 0
        rw [hnew]; exact hp (i, p) (List.mem_cons_self _ _)

theorem add_Inv (s : Store S A) (e : Transition S A) (n_step : ℕ) (gamma : ℚ)
    (h : Inv s) : Inv (s.add e n_step gamma) := by
  by_cases hc : (dequeAppend 3 s.n_step_buffer e).length = n_step
  · rw [add_of_commit s e n_step gamma hc]
    obtain ⟨⟨hcap, hplen, hble, hpw, hpc⟩, hmax, hocc⟩ := h
    by_cases hlt : s.buffer.length < s.capacity
    · have hp := hpw hlt
      refine ⟨⟨hcap, by simpa using hplen, by simp [hlt]; omega, ?_, ?_⟩, hmax, ?_⟩
      · intro hlen
        simp [hlt] at hlen ⊢
        rw [Nat.mod_eq_of_lt (by omega)]
        omega
      · simpa using Nat.mod_lt _ hcap
      · intro i hi
        simp [hlt] at hi
        by_cases hip : i = s.pos
        · subst hip
          show 0 < (s.priorities.set s.pos s.max_priority).getD s.pos 0
          rw [getD_set_self' _ _ _ _ (by omega)]
          exact hmax
        · show 0 < (s.priorities.set s.pos s.max_priority).getD i 0
          rw [getD_set_ne' _ _ _ _ _ (fun hh => hip hh.symm)]
          exact hocc i (by omega)
    · have heq : s.buffer.length = s.capacity := le_antisymm hble (not_lt.mp hlt)
      refine ⟨⟨hcap, by simpa using hplen, by simp [hlt]; omega, ?_, ?_⟩, hmax, ?_⟩
      · intro hlen
        simp [hlt] at hlen
      · simpa using Nat.mod_lt _ hcap
      · intro i hi
        simp [hlt] at hi
        by_cases hip : i = s.pos
        · subst hip
          show 0 < (s.priorities.set s.pos s.max_priority).getD s.pos 0
          rw [getD_set_self' _ _ _ _ (by omega)]
          exact hmax
        · show 0 < (s.priorities.set s.pos s.max_priority).getD i 0
          rw [getD_set_ne' _ _ _ _ _ (fun hh => hip hh.symm)]
          exact hocc i (by omega)
  · rw [add_of_no_commit s e n_step gamma hc]
    exact h

theorem sampleStep_Inv (s : Store S A) (h : Inv s) : Inv s.sampleStep := by
  rw [Store.sampleStep]
  split <;> exact h

theorem step_Inv (s : Store S A) (op : Op S A) (h : Inv s) (hop : PosOk op) :
    Inv (s.step op) := by
  cases op with
  | add e n γ => exact add_Inv s e n γ h
  | sample b draw => exact sampleStep_Inv s h
  | update idx prs =>
    refine updLoop_Inv (idx.zip prs) s h ?_
    intro q hq
    exact hop q.2 (List.of_mem_zip hq).2

/-- Claim C8 is false on the code: `update_priorities` performs no
positivity check, so the learner can set an occupied slot's priority to
0.  After three adds slot 0 is occupied with priority 1; the update op
`([0], [0])` drives it to 0, violating `priority[i] > 0`. -/
theorem c8_counterexample :
    0 < c8Mid.size ∧ c8Mid.priorities.getD 0 0 = 1 ∧
    c8Run.size = c8Mid.size ∧ c8Run.priorities.getD 0 0 = 0 ∧
    ¬ 0 < c8Run.priorities.getD 0 0 := by decide

/-- Claim C8 amended: strict positivity of occupied slots' priorities
(together with store well-formedness and a positive `max_priority`) is
preserved by every sequence of `add`, `sample` and `update_priorities`
operations in which every priority passed to `update_priorities` is
strictly positive.  With a zero or negative supplied priority the code
writes it unchecked, so positivity can be violated (see the
counterexample). -/
theorem priorities_positive_invariant (s : Store S A) (ops : List (Op S A))
    (h : Inv s) (hops : ∀ op ∈ ops, PosOk op) :
    Inv (s.steps ops) ∧
    ∀ i < (s.steps ops).buffer.length, 0 < (s.steps ops).priorities.getD i 0 := by
  have hinv : Inv (s.steps ops) := by
    induction ops generalizing s with
    | nil => exact h
    | cons op rest ih =>
      exact ih (s.step op) (step_Inv s op h (hops op (List.mem_cons_self _ _)))
        (fun r hr => hops r (List.mem_cons_of_mem _ hr))
  exact ⟨hinv, hinv.2.2⟩

theorem priorities_positive_invariant_witness :
    (Inv (egStore.steps [.add (egTr 1 1) 3 1, .add (egTr 2 2) 3 1,
        .add (egTr 3 3) 3 1, .update [0] [2], .sample 1 [0]]) ∧
      ∀ i < (egStore.steps [.add (egTr 1 1) 3 1, .add (egTr 2 2) 3 1,
        .add (egTr 3 3) 3 1, .update [0] [2], .sample 1 [0]]).buffer.length,
        0 < (egStore.steps [.add (egTr 1 1) 3 1, .add (egTr 2 2) 3 1,
          .add (egTr 3 3) 3 1, .update [0] [2], .sample 1 [0]]).priorities.getD i 0) ∧
    (egStore.steps [.add (egTr 1 1) 3 1, .add (egTr 2 2) 3 1,
      .add (egTr 3 3) 3 1, .update [0] [2], .sample 1 [0]]).priorities.getD 0 0 = 2 :=
  ⟨priorities_positive_invariant egStore
      [.add (egTr 1 1) 3 1, .add (egTr 2 2) 3 1, .add (egTr 3 3) 3 1,
        .update [0] [2], .sample 1 [0]]
      (by decide) (by decide),
    by decide⟩

theorem foldl_max_init_le (l : List ℝ) : ∀ b : ℝ, b ≤ l.foldl max b := by
  induction l with
  | nil => intro b; exact le_refl b
  | cons a t ih => intro b; exact le_trans (le_max_left b a) (ih (max b a))

theorem le_foldl_max (l : List ℝ) : ∀ (x b : ℝ), x ∈ l → x ≤ l.foldl max b := by
  induction l with
  | nil => intro x b hx; exact absurd hx (List.not_mem_nil x)
  | cons a t ih =>
    intro x b hx
    rcases List.mem_cons.mp hx with rfl | hx
    · exact le_trans (le_max_right b x) (foldl_max_init_le t _)
    · exact ih x _ hx

theorem mem_le_npMax (l : List ℝ) (x : ℝ) (hx : x ∈ l) : x ≤ npMax l :=
  le_foldl_max l x _ hx

theorem npMax_pos (l : List ℝ) (hne : l ≠ []) (hpos : ∀ x ∈ l, 0 < x) :
    0 < npMax l := by
  cases l with
  | nil => exact absurd rfl hne
  | cons a t =>
    exact lt_of_lt_of_le (hpos a (List.mem_cons_self a t))
      (mem_le_npMax (a :: t) a (List.mem_cons_self a t))

theorem foldl_max_div (m : ℝ) (hm : 0 < m) (l : List ℝ) : ∀ b : ℝ,
    (l.map (fun x => x / m)).foldl max (b / m) = (l.foldl max b) / m := by
  induction l with
  | nil => intro b; rfl
  | cons a t ih =>
    intro b
    simp only [List.map_cons, List.foldl_cons]
    rw [max_div_div_right (le_of_lt hm)]
    exact ih (max b a)

theorem npMax_map_div (l : List ℝ) (m : ℝ) (hm : 0 < m) :
    npMax (l.map (fun x => x / m)) = npMax l / m := by
  cases l with
  | nil => simp [npMax]
  | cons a t =>
    simp only [npMax, List.map_cons, List.headD_cons, List.foldl_cons, max_self]
    exact foldl_max_div m hm t a

/-- Claim C4: on a non-empty store with a nonempty draw (as produced by
`np.random.choice`, which only returns indices of positive probability),
each returned weight is `(size * p_i) ^ (-beta)` divided by the batch
maximum, so the returned weight vector has maximum exactly 1 and every
entry at most 1. -/
theorem sample_weights_max_one (s : Store S A) (draw : List ℕ)
    (hne : s.buffer.length ≠ 0) (hdm : draw ≠ [])
    (hprob : ∀ i ∈ draw, 0 < s.prob i) :
    npMax (s.sampleWeights draw) = 1 ∧
    (s.sampleResult draw).2.2 = s.sampleWeights draw ∧
    ∀ w ∈ s.sampleWeights draw, w ≤ 1 := by
  have hposw : ∀ x ∈ draw.map s.rawWeight, 0 < x := by
    intro x hx
    obtain ⟨i, hi, rfl⟩ := List.mem_map.mp hx
    show 0 < ((s.size : ℝ) * s.prob i) ^ (-((s.beta : ℚ) : ℝ))
    apply Real.rpow_pos_of_pos
    apply mul_pos
    · exact_mod_cast Nat.pos_of_ne_zero hne
    · exact hprob i hi
  have hmapne : draw.map s.rawWeight ≠ [] := by
    intro hmap
    exact hdm (List.map_eq_nil_iff.mp hmap)
  have hM : 0 < npMax (draw.map s.rawWeight) := npMax_pos _ hmapne hposw
  refine ⟨?_, ?_, ?_⟩
  · show npMax ((draw.map s.rawWeight).map
      (fun x => x / npMax (draw.map s.rawWeight))) = 1
    rw [npMax_map_div _ _ hM, div_self (ne_of_gt hM)]
  · rw [Store.sampleResult, if_neg hne]
  · intro w hw
    obtain ⟨x, hx, rfl⟩ := List.mem_map.mp hw
    exact (div_le_one hM).mpr (mem_le_npMax _ _ hx)

theorem sample_weights_max_one_witness :
    npMax (w4Store.sampleWeights [0]) = 1 ∧
    ∀ w ∈ w4Store.sampleWeights [0], w ≤ 1 := by
  have h := sample_weights_max_one w4Store [0] (by decide) (by decide)
    (by
      intro i hi
      have : i = 0 := by simpa using hi
      subst this
      show (0:ℝ) < w4Store.prob 0
      norm_num [Store.prob, w4Store, Real.one_rpow])
  exact ⟨h.1, h.2.2⟩

end Replay
